import Mathlib

/-!
Formal model of the name-unification and daily-ranking pipeline in
`App.py`.  Names are modelled as lists of characters, dates as natural
numbers (day indices, so a daily calendar range is a contiguous range of
naturals), and influence values as integers.  Python string lowercasing
is modelled by ASCII lowercasing (the rule patterns are ASCII).
-/

/-- ASCII lowercasing of a name, modelling the `.lower()` calls. -/
def lowerStr (s : List Char) : List Char := s.map Char.toLower

/-- Is the first list a prefix of the second. -/
def isPre : List Char → List Char → Bool
  | [], _ => true
  | _ :: _, [] => false
  | a :: as, b :: bs => a == b && isPre as bs

/-- Is `pat` a contiguous substring of the second list: the Python
`pat in s` test on strings. -/
def isSubstr (pat : List Char) : List Char → Bool
  | [] => pat.isEmpty
  | c :: rest => isPre pat (c :: rest) || isSubstr pat rest

/-- The apostrophe character (code point 39). -/
def apos : Char := Char.ofNat 39

/-- The special pattern from `unify_name`: the characters of the text
hull-apostrophe-s-space-wife. -/
def hullsWife : List Char := "hull".toList ++ [apos] ++ "s wife".toList

/-- The ordered rule table `unification_map` from `App.py`: each entry is a
list of patterns together with the unified display name. -/
def unification_map : List (List (List Char) × List Char) :=
  [ (["sullivan".toList], "Sullivan".toList),
    (["deb".toList], "Deb".toList),
    (["diana".toList], "Diana".toList),
    (["kyo".toList], "Kyo".toList),
    (["fmr president".toList, "fmr_president".toList], "Fmr President".toList),
    (["pluribus".toList], "Pluribus".toList),
    (["aislinn".toList], "Aislinn".toList),
    (["kayla".toList], "Kayla".toList),
    (["long".toList], "Long".toList),
    (["james hersey".toList, "james_heresy".toList], "James Hersey".toList),
    (["kearsley".toList], "Kearsley".toList),
    (["zimmerman".toList], "Zimmerman".toList),
    (["toward".toList], "Toward".toList),
    (["nord".toList], "Nord".toList),
    (["molhoj".toList], "Molhoj".toList),
    (["posting".toList], "Posting".toList),
    (["iron smith".toList], "Iron Smith".toList),
    (["pickle hersey".toList], "Pickle Hersey".toList),
    (["ducky".toList], "Ducky".toList),
    (["marks".toList], "Marks".toList),
    (["hull".toList], "Hull".toList),
    (["mccarthy".toList], "McCarthy".toList),
    (["loz".toList], "Loz".toList),
    (["hoffman".toList], "Hoffman".toList),
    (["bloodshed".toList], "Bloodshed".toList),
    (["miller".toList], "Miller".toList),
    (["watluhum".toList], "Watluhum".toList),
    (["derek".toList], "Derek".toList) ]

/-- A rule matches a (lowercased) name when some of its patterns, lowercased,
occurs as a contiguous substring of it: the inner loop of `unify_name`. -/
def ruleMatches (rule : List (List Char) × List Char) (nameLower : List Char) : Bool :=
  rule.1.any (fun p => isSubstr (lowerStr p) nameLower)

/-- First-match scan over the rule list: the outer loop of `unify_name`. -/
def matchRules : List (List (List Char) × List Char) → List Char → List Char → List Char
  | [], _, name => name
  | rule :: rest, nameLower, name =>
    if ruleMatches rule nameLower then rule.2 else matchRules rest nameLower name

/-- `unify_name` from `App.py`: return the name unchanged when its lowercased
form contains the hull-s-wife pattern, otherwise scan the rule table in order
and return the first matching rule's display name, or the name itself when no
rule matches. -/
def unify_name (name : List Char) : List Char :=
  let nameLower := lowerStr name
  if isSubstr hullsWife nameLower then name
  else matchRules unification_map nameLower name

theorem unify_name_of_hw {name : List Char}
    (h : isSubstr hullsWife (lowerStr name) = true) : unify_name name = name := by
  simp [unify_name, h]

theorem unify_name_of_not_hw {name : List Char}
    (h : isSubstr hullsWife (lowerStr name) = false) :
    unify_name name = matchRules unification_map (lowerStr name) name := by
  simp [unify_name, h]

theorem matchRules_of_none (nl nm : List Char) :
    ∀ rules : List (List (List Char) × List Char),
      (∀ r ∈ rules, ruleMatches r nl = false) → matchRules rules nl nm = nm
  | [], _ => rfl
  | rule :: rest, h => by
      have h0 : ruleMatches rule nl = false := h rule (List.mem_cons_self _ _)
      simp only [matchRules, h0, if_neg Bool.false_ne_true]
      exact matchRules_of_none nl nm rest fun r hr => h r (List.mem_cons_of_mem _ hr)

theorem matchRules_of_first (nl nm : List Char) :
    ∀ (rules : List (List (List Char) × List Char)) (i : Nat) (h : i < rules.length),
      ruleMatches (rules.get ⟨i, h⟩) nl = true →
      (∀ j (hj : j < i), ruleMatches (rules.get ⟨j, Nat.lt_trans hj h⟩) nl = false) →
      matchRules rules nl nm = (rules.get ⟨i, h⟩).2
  | rule :: rest, 0, _, hm, _ => by
      simp only [List.get] at hm ⊢
      simp [matchRules, hm]
  | rule :: rest, i + 1, h, hm, hj => by
      have h0 : ruleMatches rule nl = false := hj 0 (Nat.succ_pos i)
      simp only [List.get] at hm ⊢
      simp only [matchRules, h0, if_neg Bool.false_ne_true]
      exact matchRules_of_first nl nm rest i (Nat.lt_of_succ_lt_succ h) hm
        fun j hjlt => hj (j + 1) (Nat.succ_lt_succ hjlt)

theorem matchRules_mem (nl nm : List Char) :
    ∀ rules : List (List (List Char) × List Char),
      matchRules rules nl nm = nm ∨ matchRules rules nl nm ∈ rules.map Prod.snd
  | [] => Or.inl rfl
  | rule :: rest => by
      by_cases h : ruleMatches rule nl = true
      · right
        simp [matchRules, h]
      · rw [Bool.not_eq_true] at h
        simp only [matchRules, h, if_neg Bool.false_ne_true]
        rcases matchRules_mem nl nm rest with h1 | h1
        · exact Or.inl h1
        · exact Or.inr (by simp only [List.map_cons, List.mem_cons]; exact Or.inr h1)

/-- Every canonical display name of the rule table is a fixed point of
`unify_name`. -/
theorem unify_name_fixed_canonical :
    ∀ c ∈ unification_map.map Prod.snd, unify_name c = c := by decide

/-- A concrete name used to exercise the hull-s-wife bypass: the characters of
hull-apostrophe-s-space-wife-space-deb. -/
def hwDebName : List Char := hullsWife ++ " deb".toList

/-- C2: for every name whose lowercased form contains the hull-s-wife pattern,
`unify_name` returns the name unchanged. -/
theorem claim_C2_hulls_wife_unchanged (name : List Char)
    (h : isSubstr hullsWife (lowerStr name) = true) : unify_name name = name :=
  unify_name_of_hw h

theorem claim_C2_hulls_wife_unchanged_witness :
    isSubstr hullsWife (lowerStr hwDebName) = true ∧ unify_name hwDebName = hwDebName :=
  ⟨by decide, claim_C2_hulls_wife_unchanged hwDebName (by decide)⟩

/-- C1: when the lowercased input does not contain the hull-s-wife pattern,
`unify_name` returns the display name of the first rule in the fixed order
whose pattern matches, and returns the input unchanged when no rule
matches. -/
theorem claim_C1_first_match (name : List Char)
    (hw : isSubstr hullsWife (lowerStr name) = false) :
    (∀ (i : Nat) (h : i < unification_map.length),
        ruleMatches (unification_map.get ⟨i, h⟩) (lowerStr name) = true →
        (∀ (j : Nat) (hj : j < i),
            ruleMatches (unification_map.get ⟨j, Nat.lt_trans hj h⟩) (lowerStr name) = false) →
        unify_name name = (unification_map.get ⟨i, h⟩).2)
    ∧ ((∀ r ∈ unification_map, ruleMatches r (lowerStr name) = false) →
        unify_name name = name) := by
  constructor
  · intro i h hm hj
    rw [unify_name_of_not_hw hw]
    exact matchRules_of_first _ _ _ i h hm hj
  · intro hall
    rw [unify_name_of_not_hw hw]
    exact matchRules_of_none _ _ _ hall

/-- A concrete name matching only the kayla rule (rule index 7). -/
def kaylaName : List Char := "VC Kayla 2024".toList

theorem claim_C1_first_match_witness :
    isSubstr hullsWife (lowerStr kaylaName) = false
    ∧ unify_name kaylaName = "Kayla".toList := by
  refine ⟨by decide, ?_⟩
  exact (claim_C1_first_match kaylaName (by decide)).1 7 (by decide) (by decide) (by decide)

/-- C3 as stated fails on the code: a name containing the hull-s-wife text
does not fall through to the later deb rule; it is returned unchanged, not
unified to Deb. -/
theorem claim_C3_counterexample :
    (["deb".toList], "Deb".toList) ∈ unification_map
    ∧ "Deb".toList ≠ "Hull".toList
    ∧ isSubstr hullsWife hwDebName = true
    ∧ ruleMatches (["deb".toList], "Deb".toList) (lowerStr hwDebName) = true
    ∧ unify_name hwDebName = hwDebName
    ∧ unify_name hwDebName ≠ "Deb".toList := by decide

/-- C3 amended: a name containing the hull-s-wife pattern bypasses the whole
rule table, not just the hull rule: even when a rule other than the hull rule
matches it, `unify_name` returns the name unchanged. -/
theorem claim_C3_amended (name : List Char) (rule : List (List Char) × List Char)
    (hw : isSubstr hullsWife (lowerStr name) = true)
    (hr : rule ∈ unification_map)
    (hm : ruleMatches rule (lowerStr name) = true)
    (hnothull : rule.2 ≠ "Hull".toList) :
    unify_name name = name :=
  unify_name_of_hw hw

theorem claim_C3_amended_witness :
    isSubstr hullsWife (lowerStr hwDebName) = true
    ∧ ruleMatches (["deb".toList], "Deb".toList) (lowerStr hwDebName) = true
    ∧ unify_name hwDebName = hwDebName := by
  refine ⟨by decide, by decide, ?_⟩
  exact claim_C3_amended hwDebName (["deb".toList], "Deb".toList)
    (by decide) (by decide) (by decide) (by decide)

/-- C9: `unify_name` is idempotent on every input. -/
theorem claim_C9_idempotent (name : List Char) :
    unify_name (unify_name name) = unify_name name := by
  by_cases hw : isSubstr hullsWife (lowerStr name) = true
  · rw [unify_name_of_hw hw, unify_name_of_hw hw]
  · rw [Bool.not_eq_true] at hw
    rw [unify_name_of_not_hw hw]
    rcases matchRules_mem (lowerStr name) name unification_map with h | h
    · rw [h, unify_name_of_not_hw hw, h]
    · exact unify_name_fixed_canonical _ h

/-- C10: every output of `unify_name` is the input itself or one of the
canonical display names of the rule table. -/
theorem claim_C10_output_range (name : List Char) :
    unify_name name = name ∨ unify_name name ∈ unification_map.map Prod.snd := by
  by_cases hw : isSubstr hullsWife (lowerStr name) = true
  · exact Or.inl (unify_name_of_hw hw)
  · rw [Bool.not_eq_true] at hw
    rw [unify_name_of_not_hw hw]
    exact matchRules_mem (lowerStr name) name unification_map

/-!
The ranker.  `compute_daily_ranks` sorts one date group by influence
descending and assigns ranks 1, 2, ... in sorted order.  The pandas sort is
modelled as a stable descending sort, realised by sorting position-row pairs
with ties broken by the original position.
-/

/-- The order used to sort a date group: strictly larger influence first,
ties broken by the original position in the group. -/
def rcmp (a b : Nat × (List Char × Int)) : Prop :=
  b.2.2 < a.2.2 ∨ (a.2.2 = b.2.2 ∧ a.1 ≤ b.1)

instance : DecidableRel rcmp := fun a b => by unfold rcmp; infer_instance

instance : IsTotal (Nat × (List Char × Int)) rcmp :=
  ⟨fun a b => by unfold rcmp; omega⟩

instance : IsTrans (Nat × (List Char × Int)) rcmp :=
  ⟨fun a b c hab hbc => by unfold rcmp at *; omega⟩

/-- A ranked row of one date group: the original position of the row in the
group, the canonical user, the summed influence, and the assigned rank. -/
structure RankedRow where
  idx : Nat
  user : List Char
  influence : Int
  rank : Nat
deriving DecidableEq

/-- Attach ranks k, k+1, ... to the sorted position-row pairs. -/
def attachRanks : Nat → List (Nat × (List Char × Int)) → List RankedRow
  | _, [] => []
  | k, p :: rest => ⟨p.1, p.2.1, p.2.2, k⟩ :: attachRanks (k + 1) rest

/-- `compute_daily_ranks` from `App.py`: sort the date group by influence
descending (stably) and assign ranks 1..n in that sorted order. -/
def compute_daily_ranks (g : List (List Char × Int)) : List RankedRow :=
  attachRanks 1 (List.insertionSort rcmp g.enum)

theorem attachRanks_map_forget :
    ∀ (l : List (Nat × (List Char × Int))) (k : Nat),
      (attachRanks k l).map (fun r => (r.idx, (r.user, r.influence))) = l
  | [], _ => rfl
  | p :: rest, k => by
      simp only [attachRanks, List.map_cons, attachRanks_map_forget rest (k + 1)]

theorem attachRanks_map_rank :
    ∀ (l : List (Nat × (List Char × Int))) (k : Nat),
      (attachRanks k l).map (fun r => r.rank) = List.range' k l.length
  | [], _ => rfl
  | p :: rest, k => by
      simp only [attachRanks, List.map_cons, attachRanks_map_rank rest (k + 1),
        List.length_cons, List.range'_succ]

theorem compute_daily_ranks_forget (g : List (List Char × Int)) :
    (compute_daily_ranks g).map (fun r => (r.idx, (r.user, r.influence))) =
      List.insertionSort rcmp g.enum :=
  attachRanks_map_forget _ _

theorem compute_daily_ranks_perm (g : List (List Char × Int)) :
    List.Perm ((compute_daily_ranks g).map (fun r => (r.idx, (r.user, r.influence)))) g.enum :=
  (compute_daily_ranks_forget g) ▸ List.perm_insertionSort rcmp g.enum

theorem compute_daily_ranks_ranks (g : List (List Char × Int)) :
    (compute_daily_ranks g).map (fun r => r.rank) = List.range' 1 g.length := by
  have hlen : (List.insertionSort rcmp g.enum).length = g.length :=
    (List.perm_insertionSort rcmp g.enum).length_eq.trans (List.enum_length)
  rw [compute_daily_ranks, attachRanks_map_rank, hlen]

/-!
The aggregation pipeline of `load_and_preprocess_data`: unify the user of
every raw record, group by (date, unified user) summing influence, then
re-rank each date group.
-/

/-- A raw record of the CSV: date (day index), free-text user, influence. -/
structure Raw where
  date : Nat
  user : List Char
  influence : Int
deriving DecidableEq

/-- Step 1: replace every raw user by its unified name, keeping the
(date, unified user) key with the influence value. -/
def unifyRecords (raw : List Raw) : List ((Nat × List Char) × Int) :=
  raw.map fun r => ((r.date, unify_name r.user), r.influence)

/-- The distinct keys of a keyed record list. -/
def keysOf (l : List ((Nat × List Char) × Int)) : List (Nat × List Char) :=
  (l.map Prod.fst).dedup

/-- The summed influence of one key. -/
def sumFor (l : List ((Nat × List Char) × Int)) (k : Nat × List Char) : Int :=
  ((l.filter (fun e => decide (e.1 = k))).map (fun e => e.2)).sum

/-- Step 2: group by (date, unified user) and sum the influence values. -/
def groupSum (l : List ((Nat × List Char) × Int)) : List ((Nat × List Char) × Int) :=
  (keysOf l).map fun k => (k, sumFor l k)

/-- The rows of one date in the grouped data, as user-influence pairs. -/
def groupRowsAt (grouped : List ((Nat × List Char) × Int)) (d : Nat) :
    List (List Char × Int) :=
  (grouped.filter (fun e => decide (e.1.1 = d))).map fun e => (e.1.2, e.2)

/-- The distinct dates of the grouped data. -/
def datesOf (grouped : List ((Nat × List Char) × Int)) : List Nat :=
  (grouped.map (fun e => e.1.1)).dedup

/-- An aggregated row: date, canonical user, summed influence, daily rank. -/
structure AggRow where
  date : Nat
  user : List Char
  influence : Int
  rank : Nat
deriving DecidableEq

/-- `load_and_preprocess_data` from `App.py`, on already-parsed records:
unify names, group by (date, user) summing influence, then re-rank every
date group. -/
def load_and_preprocess_data (raw : List Raw) : List AggRow :=
  let grouped := groupSum (unifyRecords raw)
  (datesOf grouped).flatMap fun d =>
    (compute_daily_ranks (groupRowsAt grouped d)).map fun r =>
      ⟨d, r.user, r.influence, r.rank⟩

theorem dedup_filter_fst_length (d : Nat) :
    ∀ ks : List (Nat × List Char),
      (ks.dedup.filter (fun k => decide (k.1 = d))).length
        = ((ks.filter (fun k => decide (k.1 = d))).map (fun k => k.2)).dedup.length
  | [] => rfl
  | k :: ks => by
      by_cases hk : k ∈ ks
      · rw [List.dedup_cons_of_mem hk]
        by_cases hd : k.1 = d
        · have hkf : k ∈ ks.filter (fun k => decide (k.1 = d)) :=
            List.mem_filter.mpr ⟨hk, by simp [hd]⟩
          have h2 : k.2 ∈ (ks.filter (fun k => decide (k.1 = d))).map (fun k => k.2) :=
            List.mem_map_of_mem _ hkf
          rw [List.filter_cons_of_pos (by simp [hd]), List.map_cons,
            List.dedup_cons_of_mem h2]
          exact dedup_filter_fst_length d ks
        · rw [List.filter_cons_of_neg (by simp [hd])]
          exact dedup_filter_fst_length d ks
      · rw [List.dedup_cons_of_not_mem hk]
        by_cases hd : k.1 = d
        · have h2 : k.2 ∉ (ks.filter (fun k => decide (k.1 = d))).map (fun k => k.2) := by
            intro hmem
            rcases List.mem_map.mp hmem with ⟨k', hk', he⟩
            rcases List.mem_filter.mp hk' with ⟨hk'ks, hk'd⟩
            have hfst : k'.1 = k.1 := by
              have : k'.1 = d := by simpa using hk'd
              rw [this, hd]
            have : k' = k := Prod.ext hfst he
            exact hk (this ▸ hk'ks)
          rw [List.filter_cons_of_pos (by simp [hd]), List.filter_cons_of_pos (by simp [hd]),
            List.map_cons, List.dedup_cons_of_not_mem h2, List.length_cons, List.length_cons]
          exact congrArg Nat.succ (dedup_filter_fst_length d ks)
        · rw [List.filter_cons_of_neg (by simp [hd]), List.filter_cons_of_neg (by simp [hd])]
          exact dedup_filter_fst_length d ks

theorem filter_flatMap_date (d : Nat) (f : Nat → List AggRow)
    (hf : ∀ d' r, r ∈ f d' → r.date = d') :
    ∀ dl : List Nat, dl.Nodup →
      ((dl.flatMap f).filter (fun r => decide (r.date = d))
        = if d ∈ dl then f d else [])
  | [], _ => by simp
  | d' :: dl, hnd => by
      rw [List.flatMap_cons, List.filter_append]
      have hnd' := List.nodup_cons.mp hnd
      by_cases hdd : d' = d
      · subst hdd
        have h1 : (f d').filter (fun r => decide (r.date = d')) = f d' :=
          List.filter_eq_self.mpr fun r hr => by simp [hf d' r hr]
        have h2 : (dl.flatMap f).filter (fun r => decide (r.date = d')) = [] := by
          rw [filter_flatMap_date d' f hf dl hnd'.2, if_neg hnd'.1]
        rw [h1, h2, List.append_nil, if_pos (List.mem_cons_self _ _)]
      · have h1 : (f d').filter (fun r => decide (r.date = d)) = [] :=
          List.filter_eq_nil_iff.mpr fun r hr => by simp [hf d' r hr, hdd]
        rw [h1, List.nil_append, filter_flatMap_date d f hf dl hnd'.2]
        by_cases hdl : d ∈ dl
        · rw [if_pos hdl, if_pos (List.mem_cons_of_mem _ hdl)]
        · rw [if_neg hdl, if_neg (by
            simp only [List.mem_cons]
            rintro (h | h)
            · exact hdd h.symm
            · exact hdl h)]

theorem mem_dates_iff (raw : List Raw) (d : Nat) :
    d ∈ datesOf (groupSum (unifyRecords raw)) ↔ ∃ rec ∈ raw, rec.date = d := by
  simp only [datesOf, groupSum, keysOf, unifyRecords, List.mem_dedup, List.map_map,
    List.mem_map, Function.comp]
  constructor
  · rintro ⟨k, ⟨rec, hrec, hk⟩, hkd⟩
    exact ⟨rec, hrec, by rw [← hk] at hkd; exact hkd⟩
  · rintro ⟨rec, hrec, hrd⟩
    exact ⟨(rec.date, unify_name rec.user), ⟨rec, hrec, rfl⟩, hrd⟩

theorem block_date (grouped : List ((Nat × List Char) × Int)) (d : Nat) (r : AggRow)
    (hr : r ∈ (compute_daily_ranks (groupRowsAt grouped d)).map
        (fun p => (⟨d, p.user, p.influence, p.rank⟩ : AggRow))) : r.date = d := by
  rcases List.mem_map.mp hr with ⟨p, _, he⟩
  rw [← he]

theorem block_ranks (grouped : List ((Nat × List Char) × Int)) (d : Nat) :
    ((compute_daily_ranks (groupRowsAt grouped d)).map
        (fun p => (⟨d, p.user, p.influence, p.rank⟩ : AggRow))).map (fun r => r.rank)
      = List.range' 1 (groupRowsAt grouped d).length := by
  rw [List.map_map]
  exact compute_daily_ranks_ranks _

theorem groupRowsAt_length (raw : List Raw) (d : Nat) :
    (groupRowsAt (groupSum (unifyRecords raw)) d).length
      = ((raw.filter (fun rec => decide (rec.date = d))).map
          (fun rec => unify_name rec.user)).dedup.length := by
  unfold groupRowsAt groupSum keysOf
  rw [List.length_map, List.filter_map, List.length_map]
  show (List.filter (fun k => decide (k.1 = d))
      ((unifyRecords raw).map Prod.fst).dedup).length = _
  rw [dedup_filter_fst_length d]
  unfold unifyRecords
  rw [List.map_map, List.filter_map, List.map_map]
  show ((raw.filter (fun rec => decide (rec.date = d))).map
      (fun rec => unify_name rec.user)).dedup.length = _
  rfl

theorem load_and_preprocess_filter_date (raw : List Raw) (d : Nat)
    (hd : d ∈ datesOf (groupSum (unifyRecords raw))) :
    (load_and_preprocess_data raw).filter (fun r => decide (r.date = d))
      = (compute_daily_ranks (groupRowsAt (groupSum (unifyRecords raw)) d)).map
          (fun p => (⟨d, p.user, p.influence, p.rank⟩ : AggRow)) := by
  unfold load_and_preprocess_data
  show (((datesOf (groupSum (unifyRecords raw))).flatMap fun e =>
      (compute_daily_ranks (groupRowsAt (groupSum (unifyRecords raw)) e)).map fun r =>
        (⟨e, r.user, r.influence, r.rank⟩ : AggRow)).filter
          (fun r => decide (r.date = d))) = _
  have hnd : (datesOf (groupSum (unifyRecords raw))).Nodup := List.nodup_dedup _
  rw [filter_flatMap_date d _ (block_date (groupSum (unifyRecords raw))) _ hnd, if_pos hd]

/-- C5: for every date having at least one raw record, the ranks among that
date's rows of the aggregated (pre-densification) output are a permutation of
1..K, where K is the number of distinct canonical users with a raw record on
that date. -/
theorem claim_C5_ranks_permutation (raw : List Raw) (d : Nat)
    (hd : ∃ rec ∈ raw, rec.date = d) :
    List.Perm
      (((load_and_preprocess_data raw).filter (fun r => decide (r.date = d))).map
        (fun r => r.rank))
      (List.range' 1 ((raw.filter (fun rec => decide (rec.date = d))).map
        (fun rec => unify_name rec.user)).dedup.length) := by
  rw [load_and_preprocess_filter_date raw d ((mem_dates_iff raw d).mpr hd),
    block_ranks, groupRowsAt_length]

/-- The raw example from the spec: three records on one day. -/
def rawSample : List Raw :=
  [⟨0, "Sullivan Jr.".toList, 10⟩, ⟨0, "sullivan".toList, 5⟩, ⟨0, "Deb H.".toList, 20⟩]

theorem claim_C5_ranks_permutation_witness :
    (∃ rec ∈ rawSample, rec.date = 0)
    ∧ List.Perm
        (((load_and_preprocess_data rawSample).filter (fun r => decide (r.date = 0))).map
          (fun r => r.rank))
        (List.range' 1 2) :=
  ⟨by decide, claim_C5_ranks_permutation rawSample 0 (by decide)⟩

theorem sum_map_add_split (f g : (Nat × List Char) → Int) :
    ∀ xs : List (Nat × List Char),
      (xs.map (fun k => f k + g k)).sum = (xs.map f).sum + (xs.map g).sum
  | [] => by simp
  | x :: xs => by
      simp only [List.map_cons, List.sum_cons, sum_map_add_split f g xs]
      ring

theorem sum_map_ite_eq (e : Nat × List Char) (v : Int) :
    ∀ ks : List (Nat × List Char), ks.Nodup →
      (ks.map (fun k => if e = k then v else 0)).sum = if e ∈ ks then v else 0
  | [], _ => by simp
  | k :: ks, hnd => by
      have hnd' := List.nodup_cons.mp hnd
      rw [List.map_cons, List.sum_cons, sum_map_ite_eq e v ks hnd'.2]
      by_cases he : e = k
      · subst he
        rw [if_pos rfl, if_neg hnd'.1, if_pos (List.mem_cons_self _ _), add_zero]
      · rw [if_neg he]
        by_cases hm : e ∈ ks
        · rw [if_pos hm, if_pos (List.mem_cons_of_mem _ hm), zero_add]
        · rw [if_neg hm, if_neg (by simp [List.mem_cons, he, hm]), zero_add]

theorem sumFor_cons (e : (Nat × List Char) × Int) (l : List ((Nat × List Char) × Int))
    (k : Nat × List Char) :
    sumFor (e :: l) k = (if e.1 = k then e.2 else 0) + sumFor l k := by
  unfold sumFor
  by_cases he : e.1 = k
  · rw [List.filter_cons_of_pos (by simp [he]), List.map_cons, List.sum_cons, if_pos he]
  · rw [List.filter_cons_of_neg (by simp [he]), if_neg he, zero_add]

theorem sum_groupSum_keys (d : Nat) :
    ∀ (l : List ((Nat × List Char) × Int)) (ks : List (Nat × List Char)),
      ks.Nodup → (∀ e ∈ l, e.1 ∈ ks) →
      ((ks.filter (fun k => decide (k.1 = d))).map (fun k => sumFor l k)).sum
        = ((l.filter (fun e => decide (e.1.1 = d))).map (fun e => e.2)).sum
  | [], ks, _, _ => by
      have hz : ∀ x ∈ (ks.filter (fun k => decide (k.1 = d))).map
          (fun k => sumFor ([] : List ((Nat × List Char) × Int)) k), x = 0 := by
        intro x hx
        rcases List.mem_map.mp hx with ⟨k, _, he⟩
        rw [← he]
        rfl
      rw [List.sum_eq_zero hz]
      rfl
  | e :: l, ks, hnd, hcov => by
      have hcovl : ∀ x ∈ l, x.1 ∈ ks := fun x hx => hcov x (List.mem_cons_of_mem _ hx)
      have hIH := sum_groupSum_keys d l ks hnd hcovl
      have hmap : ((ks.filter (fun k => decide (k.1 = d))).map (fun k => sumFor (e :: l) k))
          = (ks.filter (fun k => decide (k.1 = d))).map
              (fun k => (if e.1 = k then e.2 else 0) + sumFor l k) :=
        List.map_congr_left fun k _ => sumFor_cons e l k
      rw [hmap, sum_map_add_split, sum_map_ite_eq e.1 e.2 _ (hnd.filter _), hIH]
      by_cases hed : e.1.1 = d
      · have hm : e.1 ∈ ks.filter (fun k => decide (k.1 = d)) :=
          List.mem_filter.mpr ⟨hcov e (List.mem_cons_self _ _), by simp [hed]⟩
        rw [if_pos hm, List.filter_cons_of_pos (by simp [hed]), List.map_cons, List.sum_cons]
      · have hm : e.1 ∉ ks.filter (fun k => decide (k.1 = d)) := fun hmem =>
          hed (by simpa using (List.mem_filter.mp hmem).2)
        rw [if_neg hm, List.filter_cons_of_neg (by simp [hed]), zero_add]

theorem block_influences (grouped : List ((Nat × List Char) × Int)) (d : Nat) :
    ((compute_daily_ranks (groupRowsAt grouped d)).map
        (fun p => (⟨d, p.user, p.influence, p.rank⟩ : AggRow))).map (fun r => r.influence)
      = (compute_daily_ranks (groupRowsAt grouped d)).map (fun r => r.influence) := by
  rw [List.map_map]
  rfl

theorem compute_daily_ranks_influences (g : List (List Char × Int)) :
    List.Perm ((compute_daily_ranks g).map (fun r => r.influence))
      (g.map (fun p => p.2)) := by
  have h := (compute_daily_ranks_perm g).map (fun p : Nat × (List Char × Int) => p.2.2)
  rw [List.map_map] at h
  have h2 : (List.enum g).map (fun p : Nat × (List Char × Int) => p.2.2)
      = g.map (fun p => p.2) := by
    calc (List.enum g).map (fun p : Nat × (List Char × Int) => p.2.2)
        = ((List.enum g).map Prod.snd).map (fun p => p.2) := by rw [List.map_map]; rfl
      _ = g.map (fun p => p.2) := by rw [List.enum_map_snd]
  rw [h2] at h
  exact h

/-- C6: for every date, the total influence in the aggregated
(pre-densification) output over that date equals the sum of the raw
influence values of the raw records of that date. -/
theorem claim_C6_influence_conserved (raw : List Raw) (d : Nat) :
    (((load_and_preprocess_data raw).filter (fun r => decide (r.date = d))).map
      (fun r => r.influence)).sum
      = ((raw.filter (fun rec => decide (rec.date = d))).map
          (fun rec => rec.influence)).sum := by
  by_cases hd : d ∈ datesOf (groupSum (unifyRecords raw))
  · rw [load_and_preprocess_filter_date raw d hd, block_influences]
    have hperm := compute_daily_ranks_influences (groupRowsAt (groupSum (unifyRecords raw)) d)
    rw [hperm.sum_eq]
    unfold groupRowsAt
    rw [List.map_map]
    show (((groupSum (unifyRecords raw)).filter (fun e => decide (e.1.1 = d))).map
        (fun e => e.2)).sum = _
    unfold groupSum
    rw [List.filter_map, List.map_map]
    show (((keysOf (unifyRecords raw)).filter (fun k => decide (k.1 = d))).map
        (fun k => sumFor (unifyRecords raw) k)).sum = _
    rw [sum_groupSum_keys d (unifyRecords raw) (keysOf (unifyRecords raw))
      (List.nodup_dedup _) (fun e he => List.mem_dedup.mpr (List.mem_map_of_mem _ he))]
    unfold unifyRecords
    rw [List.filter_map, List.map_map]
    show ((raw.filter (fun rec => decide (rec.date = d))).map
        (fun rec => rec.influence)).sum = _
    rfl
  · have hno : ¬ ∃ rec ∈ raw, rec.date = d := fun h => hd ((mem_dates_iff raw d).mpr h)
    have hnd2 : (datesOf (groupSum (unifyRecords raw))).Nodup := List.nodup_dedup _
    have h1 : (load_and_preprocess_data raw).filter (fun r => decide (r.date = d)) = [] := by
      unfold load_and_preprocess_data
      show (((datesOf (groupSum (unifyRecords raw))).flatMap fun e =>
          (compute_daily_ranks (groupRowsAt (groupSum (unifyRecords raw)) e)).map fun r =>
            (⟨e, r.user, r.influence, r.rank⟩ : AggRow)).filter
              (fun r => decide (r.date = d))) = []
      rw [filter_flatMap_date d _ (block_date (groupSum (unifyRecords raw))) _ hnd2,
        if_neg hd]
    have h2 : raw.filter (fun rec => decide (rec.date = d)) = [] :=
      List.filter_eq_nil_iff.mpr fun rec hrec hpred => hno ⟨rec, hrec, by simpa using hpred⟩
    rw [h1, h2]
    rfl

/-!
The grid densifier `create_all_dates_user_df`: expand the aggregated data to
the full cross product of the daily calendar range with the set of canonical
users, left-merge the aggregated rows on (date, user), then fill missing
influence with 0 and missing rank with the maximum rank of the date.
-/

/-- The maximum of a list of naturals, none when the list is empty: the
pandas max with skipna. -/
def listMax : List Nat → Option Nat
  | [] => none
  | x :: xs => match listMax xs with
    | none => some x
    | some m => some (max x m)

/-- The minimum of a list of naturals, none when the list is empty. -/
def listMin : List Nat → Option Nat
  | [] => none
  | x :: xs => match listMin xs with
    | none => some x
    | some m => some (min x m)

theorem listMax_spec :
    ∀ (xs : List Nat) (M : Nat), listMax xs = some M → M ∈ xs ∧ ∀ x ∈ xs, x ≤ M
  | [], M => by intro h; cases h
  | x :: xs, M => by
      intro h
      unfold listMax at h
      cases hxs : listMax xs with
      | none =>
          rw [hxs] at h
          cases h
          have hnil : xs = [] := by
            cases xs with
            | nil => rfl
            | cons y ys => unfold listMax at hxs; cases h2 : listMax ys <;> rw [h2] at hxs <;> cases hxs
          subst hnil
          constructor
          · exact List.mem_cons_self _ _
          · intro y hy
            rcases List.mem_cons.mp hy with h | h
            · omega
            · cases h
      | some m =>
          rw [hxs] at h
          cases h
          rcases listMax_spec xs m hxs with ⟨hmem, hle⟩
          constructor
          · rcases Nat.le_total x m with hxm | hmx
            · rw [Nat.max_eq_right hxm]
              exact List.mem_cons_of_mem _ hmem
            · rw [Nat.max_eq_left hmx]
              exact List.mem_cons_self _ _
          · intro y hy
            rcases List.mem_cons.mp hy with h | h
            · subst h; exact Nat.le_max_left _ _
            · exact Nat.le_trans (hle y h) (Nat.le_max_right _ _)

theorem listMin_spec :
    ∀ (xs : List Nat) (m : Nat), listMin xs = some m → m ∈ xs ∧ ∀ x ∈ xs, m ≤ x
  | [], m => by intro h; cases h
  | x :: xs, m => by
      intro h
      unfold listMin at h
      cases hxs : listMin xs with
      | none =>
          rw [hxs] at h
          cases h
          have hnil : xs = [] := by
            cases xs with
            | nil => rfl
            | cons y ys => unfold listMin at hxs; cases h2 : listMin ys <;> rw [h2] at hxs <;> cases hxs
          subst hnil
          constructor
          · exact List.mem_cons_self _ _
          · intro y hy
            rcases List.mem_cons.mp hy with h | h
            · omega
            · cases h
      | some mm =>
          rw [hxs] at h
          cases h
          rcases listMin_spec xs mm hxs with ⟨hmem, hle⟩
          constructor
          · rcases Nat.le_total x mm with hxm | hmx
            · rw [Nat.min_eq_left hxm]
              exact List.mem_cons_self _ _
            · rw [Nat.min_eq_right hmx]
              exact List.mem_cons_of_mem _ hmem
          · intro y hy
            rcases List.mem_cons.mp hy with h | h
            · subst h; exact Nat.min_le_left _ _
            · exact Nat.le_trans (Nat.min_le_right _ _) (hle y h)

theorem listMax_isSome : ∀ xs : List Nat, xs ≠ [] → ∃ M, listMax xs = some M
  | [], h => absurd rfl h
  | x :: xs, _ => by
      unfold listMax
      cases listMax xs with
      | none => exact ⟨x, rfl⟩
      | some m => exact ⟨max x m, rfl⟩

theorem listMin_isSome : ∀ xs : List Nat, xs ≠ [] → ∃ m, listMin xs = some m
  | [], h => absurd rfl h
  | x :: xs, _ => by
      unfold listMin
      cases listMin xs with
      | none => exact ⟨x, rfl⟩
      | some m => exact ⟨min x m, rfl⟩

theorem listMax_eq_none : ∀ xs : List Nat, listMax xs = none → xs = []
  | [], _ => rfl
  | x :: xs, h => by
      unfold listMax at h
      cases h2 : listMax xs <;> rw [h2] at h <;> cases h

theorem listMax_congr (xs ys : List Nat) (h : ∀ x, x ∈ xs ↔ x ∈ ys) :
    listMax xs = listMax ys := by
  cases hx : listMax xs with
  | none =>
      have := listMax_eq_none xs hx
      subst this
      cases hy : listMax ys with
      | none => rfl
      | some M =>
          rcases listMax_spec ys M hy with ⟨hmem, _⟩
          exact absurd ((h M).mpr hmem) (List.not_mem_nil M)
  | some M =>
      rcases listMax_spec xs M hx with ⟨hmem, hle⟩
      cases hy : listMax ys with
      | none =>
          have := listMax_eq_none ys hy
          subst this
          exact absurd ((h M).mp hmem) (List.not_mem_nil M)
      | some N =>
          rcases listMax_spec ys N hy with ⟨hmemN, hleN⟩
          have h1 : M ≤ N := hleN M ((h M).mp hmem)
          have h2 : N ≤ M := hle N ((h N).mpr hmemN)
          rw [Nat.le_antisymm h1 h2]

/-- A merged row before gap filling: influence and rank are missing (NaN) on
rows synthesized by the left merge. -/
structure MergedRow where
  date : Nat
  user : List Char
  influence : Option Int
  rank : Option Nat
deriving DecidableEq

/-- A dense-grid row after filling: influence is always present; the rank
stays missing only when the whole date group had no rank at all. -/
structure GridRow where
  date : Nat
  user : List Char
  influence : Int
  rank : Option Nat
deriving DecidableEq

/-- The daily calendar range from the minimum to the maximum date of the
aggregated data, inclusive: pd.date_range with daily frequency. -/
def allDates (df : List AggRow) : List Nat :=
  List.range' ((listMin (df.map fun r => r.date)).getD 0)
    ((listMax (df.map fun r => r.date)).getD 0 + 1
      - (listMin (df.map fun r => r.date)).getD 0)

/-- The distinct canonical users of the aggregated data: .unique(). -/
def allUsers (df : List AggRow) : List (List Char) :=
  (df.map fun r => r.user).dedup

/-- The cross-product index of all dates with all users:
pd.MultiIndex.from_product. -/
def fullIndex (df : List AggRow) : List (Nat × List Char) :=
  (allDates df).flatMap fun d => (allUsers df).map fun u => (d, u)

/-- The left merge on (date, user) for one index pair: every aggregated row
matching the pair contributes a row; a pair with no match yields one row with
missing influence and rank. -/
def mergeRows (df : List AggRow) (p : Nat × List Char) : List MergedRow :=
  let hits := df.filter fun r => decide (r.date = p.1 ∧ r.user = p.2)
  if hits.isEmpty then [⟨p.1, p.2, none, none⟩]
  else hits.map fun r => ⟨p.1, p.2, some r.influence, some r.rank⟩

/-- `fill_missing` from `App.py` on one date group: replace missing ranks by
the maximum rank present in the group (left missing when the group has no
rank at all) and missing influence by 0. -/
def fill_missing (g : List MergedRow) : List GridRow :=
  let mr := listMax (g.filterMap fun r => r.rank)
  g.map fun r =>
    ⟨r.date, r.user, r.influence.getD 0,
      match r.rank with
      | some k => some k
      | none => mr⟩

/-- `create_all_dates_user_df` from `App.py`: build the cross-product index,
left-merge the aggregated rows on (date, user), then fill every date group of
the merged frame. -/
def create_all_dates_user_df (df : List AggRow) : List GridRow :=
  let merged := (fullIndex df).flatMap (mergeRows df)
  ((merged.map fun r => r.date).dedup).flatMap fun d =>
    fill_missing (merged.filter fun r => decide (r.date = d))

theorem countP_flatMap_sum {α β : Type} (p : β → Bool) (f : α → List β) :
    ∀ l : List α, (l.flatMap f).countP p = (l.map fun a => (f a).countP p).sum
  | [] => rfl
  | a :: l => by
      rw [List.flatMap_cons, List.countP_append, List.map_cons, List.sum_cons,
        countP_flatMap_sum p f l]

theorem countP_restrict {α : Type} (p q : α → Bool) (himp : ∀ a, p a = true → q a = true) :
    ∀ l : List α, (l.filter q).countP p = l.countP p
  | [] => rfl
  | a :: l => by
      by_cases hq : q a = true
      · rw [List.filter_cons_of_pos hq, List.countP_cons, List.countP_cons,
          countP_restrict p q himp l]
      · have hp : ¬ p a = true := fun hpa => hq (himp a hpa)
        rw [List.filter_cons_of_neg hq, List.countP_cons, countP_restrict p q himp l]
        simp [hp]

theorem sum_map_ite_mem {α : Type} [DecidableEq α] (a : α) (v : Nat) :
    ∀ l : List α, l.Nodup →
      (l.map fun x => if x = a then v else 0).sum = if a ∈ l then v else 0
  | [], _ => by simp
  | x :: l, hnd => by
      have hnd' := List.nodup_cons.mp hnd
      rw [List.map_cons, List.sum_cons, sum_map_ite_mem a v l hnd'.2]
      by_cases hx : x = a
      · subst hx
        rw [if_pos rfl, if_neg hnd'.1, if_pos (List.mem_cons_self _ _), Nat.add_zero]
      · rw [if_neg hx]
        by_cases hm : a ∈ l
        · rw [if_pos hm, if_pos (List.mem_cons_of_mem _ hm), Nat.zero_add]
        · rw [if_neg hm, if_neg (fun hc => by
            rcases List.mem_cons.mp hc with h | h
            · exact hx h.symm
            · exact hm h), Nat.zero_add]

theorem mergeRows_date_user (df : List AggRow) (p : Nat × List Char) (m : MergedRow)
    (hm : m ∈ mergeRows df p) : m.date = p.1 ∧ m.user = p.2 := by
  unfold mergeRows at hm
  by_cases he : (df.filter fun r => decide (r.date = p.1 ∧ r.user = p.2)).isEmpty = true
  · rw [if_pos he] at hm
    rw [List.mem_singleton] at hm
    subst hm
    exact ⟨rfl, rfl⟩
  · rw [if_neg he] at hm
    rcases List.mem_map.mp hm with ⟨r, _, he2⟩
    rw [← he2]
    exact ⟨rfl, rfl⟩

theorem mergeRows_ne_nil (df : List AggRow) (p : Nat × List Char) :
    mergeRows df p ≠ [] := by
  unfold mergeRows
  by_cases he : (df.filter fun r => decide (r.date = p.1 ∧ r.user = p.2)).isEmpty = true
  · rw [if_pos he]
    exact List.cons_ne_nil _ _
  · rw [if_neg he]
    have hne : (df.filter fun r => decide (r.date = p.1 ∧ r.user = p.2)) ≠ [] := by
      intro h
      apply he
      rw [h]
      rfl
    intro hcon
    apply hne
    have hlen := congrArg List.length hcon
    rw [List.length_map] at hlen
    exact List.length_eq_zero.mp hlen

theorem filter_key_length_le_one :
    ∀ (df : List AggRow), (df.map fun a => (a.date, a.user)).Nodup →
      ∀ p : Nat × List Char,
        (df.filter fun r => decide (r.date = p.1 ∧ r.user = p.2)).length ≤ 1
  | [], _, p => by simp
  | a :: df, hnd, p => by
      rw [List.map_cons, List.nodup_cons] at hnd
      by_cases ha : a.date = p.1 ∧ a.user = p.2
      · rw [List.filter_cons_of_pos (by simpa using ha)]
        have hnil : df.filter (fun r => decide (r.date = p.1 ∧ r.user = p.2)) = [] := by
          rw [List.filter_eq_nil_iff]
          intro b hb hbp
          have hb2 : b.date = p.1 ∧ b.user = p.2 := by simpa using hbp
          apply hnd.1
          have hkey : (a.date, a.user) = (b.date, b.user) := by
            rw [ha.1, ha.2, hb2.1, hb2.2]
          rw [hkey]
          exact List.mem_map_of_mem _ hb
        rw [hnil]
        simp
      · rw [List.filter_cons_of_neg (by simpa using ha)]
        exact filter_key_length_le_one df hnd.2 p

theorem countP_mergeRows (df : List AggRow)
    (hnd : (df.map fun a => (a.date, a.user)).Nodup) (d : Nat) (u : List Char)
    (p : Nat × List Char) :
    (mergeRows df p).countP (fun m => decide (m.date = d ∧ m.user = u))
      = if p = (d, u) then 1 else 0 := by
  unfold mergeRows
  by_cases he : (df.filter fun r => decide (r.date = p.1 ∧ r.user = p.2)).isEmpty = true
  · rw [if_pos he]
    by_cases hp : p = (d, u)
    · subst hp
      simp
    · have hc : ¬(p.1 = d ∧ p.2 = u) := fun hc => hp (Prod.ext hc.1 hc.2)
      simp [hp, hc]
  · rw [if_neg he, List.countP_map]
    have hne : (df.filter fun r => decide (r.date = p.1 ∧ r.user = p.2)) ≠ [] := by
      intro h
      apply he
      rw [h]
      rfl
    by_cases hp : p = (d, u)
    · subst hp
      rw [if_pos rfl]
      have hall : List.countP
          ((fun m : MergedRow => decide (m.date = (d, u).1 ∧ m.user = (d, u).2)) ∘
            fun r => (⟨(d, u).1, (d, u).2, some r.influence, some r.rank⟩ : MergedRow))
          (df.filter fun r => decide (r.date = (d, u).1 ∧ r.user = (d, u).2))
          = (df.filter fun r => decide (r.date = (d, u).1 ∧ r.user = (d, u).2)).length :=
        List.countP_eq_length.mpr fun r _ => by simp
      rw [hall]
      have hle := filter_key_length_le_one df hnd (d, u)
      have hpos := List.length_pos.mpr hne
      omega
    · rw [if_neg hp]
      refine List.countP_eq_zero.mpr fun r _ => ?_
      simp only [Function.comp]
      intro hc
      rw [decide_eq_true_eq] at hc
      exact hp (Prod.ext hc.1 hc.2)

theorem sum_map_flatMap {α β : Type} (g : β → Nat) (f : α → List β) :
    ∀ l : List α, ((l.flatMap f).map g).sum = (l.map fun a => ((f a).map g).sum).sum
  | [] => rfl
  | a :: l => by
      rw [List.flatMap_cons, List.map_append, List.sum_append, List.map_cons,
        List.sum_cons, sum_map_flatMap g f l]

theorem count_fullIndex (df : List AggRow) (d : Nat) (u : List Char) :
    ((fullIndex df).map fun p => if p = (d, u) then 1 else 0).sum
      = if d ∈ allDates df ∧ u ∈ allUsers df then 1 else 0 := by
  unfold fullIndex
  rw [sum_map_flatMap]
  have hinner : ∀ d' ∈ allDates df,
      (((allUsers df).map fun u' => (d', u')).map fun p => if p = (d, u) then 1 else 0).sum
        = if d' = d then (if u ∈ allUsers df then 1 else 0) else 0 := by
    intro d' _
    rw [List.map_map]
    by_cases hd : d' = d
    · subst hd
      rw [if_pos rfl]
      rw [List.map_congr_left (fun u' _ => (by
        by_cases hu : u' = u
        · simp [hu]
        · simp [hu, fun hc : (d', u') = (d', u) => hu (congrArg Prod.snd hc)] :
          ((fun p => if p = (d', u) then 1 else 0) ∘ fun u' => (d', u')) u'
            = if u' = u then 1 else 0))]
      convert sum_map_ite_mem u 1 (allUsers df) (List.nodup_dedup _) using 2
    · rw [if_neg hd]
      refine List.sum_eq_zero fun x hx => ?_
      rcases List.mem_map.mp hx with ⟨u', _, he⟩
      have hne : ¬((d', u') = (d, u)) := fun hc => hd (congrArg Prod.fst hc)
      simp only [Function.comp] at he
      rw [← he, if_neg hne]
  rw [List.map_congr_left hinner]
  rw [sum_map_ite_mem d (if u ∈ allUsers df then 1 else 0) (allDates df)
    (List.nodup_range' _ _)]
  by_cases hd : d ∈ allDates df
  · by_cases hu : u ∈ allUsers df
    · rw [if_pos hd, if_pos hu, if_pos ⟨hd, hu⟩]
    · rw [if_pos hd, if_neg hu, if_neg fun hc => hu hc.2]
  · rw [if_neg hd, if_neg fun hc => hd hc.1]

theorem countP_merged (df : List AggRow)
    (hnd : (df.map fun a => (a.date, a.user)).Nodup) (d : Nat) (u : List Char) :
    ((fullIndex df).flatMap (mergeRows df)).countP
        (fun m => decide (m.date = d ∧ m.user = u))
      = if d ∈ allDates df ∧ u ∈ allUsers df then 1 else 0 := by
  rw [countP_flatMap_sum]
  rw [List.map_congr_left fun p _ => countP_mergeRows df hnd d u p]
  exact count_fullIndex df d u

theorem filter_flatMap_date_grid (d : Nat) (f : Nat → List GridRow)
    (hf : ∀ d' r, r ∈ f d' → r.date = d') :
    ∀ dl : List Nat, dl.Nodup →
      ((dl.flatMap f).filter (fun r => decide (r.date = d))
        = if d ∈ dl then f d else [])
  | [], _ => by simp
  | d' :: dl, hnd => by
      rw [List.flatMap_cons, List.filter_append]
      have hnd' := List.nodup_cons.mp hnd
      by_cases hdd : d' = d
      · subst hdd
        have h1 : (f d').filter (fun r => decide (r.date = d')) = f d' :=
          List.filter_eq_self.mpr fun r hr => by simp [hf d' r hr]
        have h2 : (dl.flatMap f).filter (fun r => decide (r.date = d')) = [] := by
          rw [filter_flatMap_date_grid d' f hf dl hnd'.2, if_neg hnd'.1]
        rw [h1, h2, List.append_nil, if_pos (List.mem_cons_self _ _)]
      · have h1 : (f d').filter (fun r => decide (r.date = d)) = [] :=
          List.filter_eq_nil_iff.mpr fun r hr => by simp [hf d' r hr, hdd]
        rw [h1, List.nil_append, filter_flatMap_date_grid d f hf dl hnd'.2]
        by_cases hdl : d ∈ dl
        · rw [if_pos hdl, if_pos (List.mem_cons_of_mem _ hdl)]
        · rw [if_neg hdl, if_neg (by
            simp only [List.mem_cons]
            rintro (h | h)
            · exact hdd h.symm
            · exact hdl h)]

theorem fill_missing_mem (g : List MergedRow) (r : GridRow) (hr : r ∈ fill_missing g) :
    ∃ m ∈ g, r.date = m.date ∧ r.user = m.user := by
  simp only [fill_missing] at hr
  rcases List.mem_map.mp hr with ⟨m, hm, he⟩
  exact ⟨m, hm, by rw [← he], by rw [← he]⟩

theorem mem_merged_dates (df : List AggRow) (d : Nat) (hd : d ∈ allDates df)
    (hu : ∃ u, u ∈ allUsers df) :
    d ∈ ((((fullIndex df).flatMap (mergeRows df)).map fun r => r.date).dedup) := by
  rcases hu with ⟨u, hu⟩
  rw [List.mem_dedup, List.mem_map]
  have hp : (d, u) ∈ fullIndex df := by
    unfold fullIndex
    rw [List.mem_flatMap]
    exact ⟨d, hd, List.mem_map.mpr ⟨u, hu, rfl⟩⟩
  rcases List.exists_mem_of_ne_nil (mergeRows df (d, u)) (mergeRows_ne_nil df (d, u)) with
    ⟨m, hm⟩
  exact ⟨m, List.mem_flatMap.mpr ⟨(d, u), hp, hm⟩, (mergeRows_date_user df (d, u) m hm).1⟩

theorem min_le_max_dates (df : List AggRow) (hne : df ≠ []) :
    (listMin (df.map fun a => a.date)).getD 0 ≤ (listMax (df.map fun a => a.date)).getD 0 := by
  have hmapne : df.map (fun a => a.date) ≠ [] := by
    intro h
    apply hne
    have hlen := congrArg List.length h
    rw [List.length_map] at hlen
    exact List.length_eq_zero.mp hlen
  rcases listMin_isSome _ hmapne with ⟨m, hm⟩
  rcases listMax_isSome _ hmapne with ⟨M, hM⟩
  rw [hm, hM, Option.getD_some, Option.getD_some]
  exact (listMax_spec _ M hM).2 m (listMin_spec _ m hm).1

theorem mem_allDates_iff (df : List AggRow) (hne : df ≠ []) (dd : Nat) :
    dd ∈ allDates df ↔
      ((listMin (df.map fun a => a.date)).getD 0 ≤ dd
        ∧ dd ≤ (listMax (df.map fun a => a.date)).getD 0) := by
  unfold allDates
  rw [List.mem_range'_1]
  have := min_le_max_dates df hne
  omega

/-- C7: on aggregated input with unique (date, user) keys, the densified
output contains exactly one row for every (date, user) pair in the cross
product of the daily calendar range (from the minimum to the maximum date of
the data, inclusive) with the set of all canonical users, and no row for any
other pair. -/
theorem claim_C7_dense_cross_product (df : List AggRow) (hne : df ≠ [])
    (hnd : (df.map fun a => (a.date, a.user)).Nodup) (d : Nat) (u : List Char) :
    (create_all_dates_user_df df).countP (fun r => decide (r.date = d ∧ r.user = u))
      = if (listMin (df.map fun a => a.date)).getD 0 ≤ d
            ∧ d ≤ (listMax (df.map fun a => a.date)).getD 0
            ∧ u ∈ allUsers df
        then 1 else 0 := by
  have himp : ∀ r : GridRow, decide (r.date = d ∧ r.user = u) = true →
      decide (r.date = d) = true := by
    intro r hr
    rw [decide_eq_true_eq] at hr ⊢
    exact hr.1
  rw [← countP_restrict _ _ himp (create_all_dates_user_df df)]
  have hf : ∀ (d' : Nat) (r : GridRow),
      r ∈ fill_missing (((fullIndex df).flatMap (mergeRows df)).filter
        fun m => decide (m.date = d')) → r.date = d' := by
    intro d' r hr
    rcases fill_missing_mem _ r hr with ⟨m, hm, hdate, _⟩
    have hmd := (List.mem_filter.mp hm).2
    rw [decide_eq_true_eq] at hmd
    rw [hdate, hmd]
  show (((((((fullIndex df).flatMap (mergeRows df)).map fun r => r.date).dedup).flatMap
      fun e => fill_missing (((fullIndex df).flatMap (mergeRows df)).filter
        fun m => decide (m.date = e))).filter fun r => decide (r.date = d)).countP
          fun r => decide (r.date = d ∧ r.user = u)) = _
  rw [filter_flatMap_date_grid d _ hf _ (List.nodup_dedup _)]
  by_cases hin : d ∈ ((((fullIndex df).flatMap (mergeRows df)).map fun r => r.date).dedup)
  · rw [if_pos hin]
    simp only [fill_missing]
    rw [List.countP_map]
    show ((((fullIndex df).flatMap (mergeRows df)).filter fun m => decide (m.date = d)).countP
        fun m => decide (m.date = d ∧ m.user = u)) = _
    have himp2 : ∀ m : MergedRow, decide (m.date = d ∧ m.user = u) = true →
        decide (m.date = d) = true := by
      intro m hm
      rw [decide_eq_true_eq] at hm ⊢
      exact hm.1
    rw [countP_restrict _ _ himp2, countP_merged df hnd d u]
    by_cases hc1 : d ∈ allDates df ∧ u ∈ allUsers df
    · rw [if_pos hc1, if_pos ⟨((mem_allDates_iff df hne d).mp hc1.1).1,
        ((mem_allDates_iff df hne d).mp hc1.1).2, hc1.2⟩]
    · rw [if_neg hc1, if_neg fun hc =>
        hc1 ⟨(mem_allDates_iff df hne d).mpr ⟨hc.1, hc.2.1⟩, hc.2.2⟩]
  · rw [if_neg hin, List.countP_nil,
      if_neg fun hc => hin (mem_merged_dates df d
        ((mem_allDates_iff df hne d).mpr ⟨hc.1, hc.2.1⟩) ⟨u, hc.2.2⟩)]

/-- A concrete aggregated frame with a gap: user B has no row on date 0. -/
def dfSample : List AggRow :=
  [⟨0, "A".toList, 5, 1⟩, ⟨1, "A".toList, 3, 1⟩, ⟨1, "B".toList, 2, 2⟩]

theorem claim_C7_dense_cross_product_witness :
    dfSample ≠ []
    ∧ (dfSample.map fun a => (a.date, a.user)).Nodup
    ∧ (create_all_dates_user_df dfSample).countP
        (fun r => decide (r.date = 0 ∧ r.user = "B".toList)) = 1 :=
  ⟨by decide, by decide,
    (claim_C7_dense_cross_product dfSample (by decide) (by decide) 0 "B".toList).trans
      (by decide)⟩

theorem date_bounds (df : List AggRow) (a : AggRow) (ha : a ∈ df) :
    (listMin (df.map fun r => r.date)).getD 0 ≤ a.date
      ∧ a.date ≤ (listMax (df.map fun r => r.date)).getD 0 := by
  have hmem : a.date ∈ df.map (fun r => r.date) := List.mem_map_of_mem _ ha
  have hmapne : df.map (fun r => r.date) ≠ [] := by
    intro h
    rw [h] at hmem
    cases hmem
  rcases listMin_isSome _ hmapne with ⟨m, hm⟩
  rcases listMax_isSome _ hmapne with ⟨M, hM⟩
  rw [hm, hM, Option.getD_some, Option.getD_some]
  exact ⟨(listMin_spec _ m hm).2 _ hmem, (listMax_spec _ M hM).2 _ hmem⟩

theorem merged_block_ranks (df : List AggRow) (d : Nat) (x : Nat) :
    (x ∈ ((((fullIndex df).flatMap (mergeRows df)).filter
        fun m => decide (m.date = d)).filterMap fun m => m.rank))
      ↔ x ∈ ((df.filter fun a => decide (a.date = d)).map fun a => a.rank) := by
  constructor
  · intro hx
    rcases List.mem_filterMap.mp hx with ⟨m, hm, hrank⟩
    rcases List.mem_filter.mp hm with ⟨hmm, hmd⟩
    rw [decide_eq_true_eq] at hmd
    rcases List.mem_flatMap.mp hmm with ⟨p, _, hmp⟩
    unfold mergeRows at hmp
    by_cases he : (df.filter fun r => decide (r.date = p.1 ∧ r.user = p.2)).isEmpty = true
    · rw [if_pos he, List.mem_singleton] at hmp
      subst hmp
      cases hrank
    · rw [if_neg he] at hmp
      rcases List.mem_map.mp hmp with ⟨a, ha, hae⟩
      rcases List.mem_filter.mp ha with ⟨hadf, hap⟩
      rw [decide_eq_true_eq] at hap
      have hmdate : m.date = p.1 := by rw [← hae]
      have hmrank : m.rank = some a.rank := by rw [← hae]
      rw [List.mem_map]
      refine ⟨a, List.mem_filter.mpr ⟨hadf, ?_⟩, ?_⟩
      · rw [decide_eq_true_eq, hap.1, ← hmdate, hmd]
      · rw [hmrank] at hrank
        exact (Option.some_inj.mp hrank)
  · intro hx
    rcases List.mem_map.mp hx with ⟨a, ha, hax⟩
    rcases List.mem_filter.mp ha with ⟨hadf, had⟩
    rw [decide_eq_true_eq] at had
    have hne : df ≠ [] := by
      intro h
      rw [h] at hadf
      cases hadf
    have hdd : a.date ∈ allDates df :=
      (mem_allDates_iff df hne a.date).mpr (date_bounds df a hadf)
    have hu : a.user ∈ allUsers df := List.mem_dedup.mpr (List.mem_map_of_mem _ hadf)
    have hp : (a.date, a.user) ∈ fullIndex df := by
      unfold fullIndex
      rw [List.mem_flatMap]
      exact ⟨a.date, hdd, List.mem_map.mpr ⟨a.user, hu, rfl⟩⟩
    have hahit : a ∈ df.filter (fun r => decide (r.date = a.date ∧ r.user = a.user)) :=
      List.mem_filter.mpr ⟨hadf, by simp⟩
    have hemp : ¬ (df.filter
        (fun r => decide (r.date = a.date ∧ r.user = a.user))).isEmpty = true := by
      intro hemp
      rw [List.isEmpty_iff] at hemp
      rw [hemp] at hahit
      cases hahit
    refine List.mem_filterMap.mpr
      ⟨⟨a.date, a.user, some a.influence, some a.rank⟩, ?_, ?_⟩
    · refine List.mem_filter.mpr ⟨?_, ?_⟩
      · refine List.mem_flatMap.mpr ⟨(a.date, a.user), hp, ?_⟩
        unfold mergeRows
        rw [if_neg hemp]
        exact List.mem_map.mpr ⟨a, hahit, rfl⟩
      · rw [decide_eq_true_eq]
        exact had
    · rw [hax]

theorem output_row_form (df : List AggRow) (r : GridRow)
    (hr : r ∈ create_all_dates_user_df df) :
    ∃ m ∈ (fullIndex df).flatMap (mergeRows df),
      r.date = m.date ∧ r.user = m.user
      ∧ r.influence = m.influence.getD 0
      ∧ r.rank = (match m.rank with
          | some k => some k
          | none => listMax ((((fullIndex df).flatMap (mergeRows df)).filter
              fun m2 => decide (m2.date = m.date)).filterMap fun m2 => m2.rank)) := by
  simp only [create_all_dates_user_df] at hr
  rcases List.mem_flatMap.mp hr with ⟨d, _, hrf⟩
  simp only [fill_missing] at hrf
  rcases List.mem_map.mp hrf with ⟨m, hm, he⟩
  have hmf := List.mem_filter.mp hm
  have hmd : m.date = d := by
    have h2 := hmf.2
    rwa [decide_eq_true_eq] at h2
  refine ⟨m, hmf.1, ?_, ?_, ?_, ?_⟩
  · rw [← he]
  · rw [← he]
  · rw [← he]
  · rw [← he, hmd]

/-- C8: on aggregated input with unique (date, user) keys, the densifier
keeps the influence and rank of every real row unchanged, and for every
output row whose (date, user) pair is absent from the aggregated data, when
the date has at least one real aggregated row, the synthesized row has
influence 0 and its rank is the maximum rank among the real rows of that
date. -/
theorem claim_C8_fill_values (df : List AggRow)
    (hnd : (df.map fun a => (a.date, a.user)).Nodup) :
    (∀ a ∈ df, ∀ r ∈ create_all_dates_user_df df,
        r.date = a.date → r.user = a.user →
        r.influence = a.influence ∧ r.rank = some a.rank)
    ∧ (∀ r ∈ create_all_dates_user_df df,
        (∀ a ∈ df, ¬(a.date = r.date ∧ a.user = r.user)) →
        (∃ a ∈ df, a.date = r.date) →
        r.influence = 0 ∧ r.rank = listMax ((df.filter
            fun a => decide (a.date = r.date)).map fun a => a.rank)) := by
  constructor
  · intro a ha r hr hrd hru
    rcases output_row_form df r hr with ⟨m, hmm, h1, h2, h3, h4⟩
    rcases List.mem_flatMap.mp hmm with ⟨p, _, hmp⟩
    rcases mergeRows_date_user df p m hmp with ⟨hmdate, hmuser⟩
    have hp1 : p.1 = a.date := by rw [← hmdate, ← h1, hrd]
    have hp2 : p.2 = a.user := by rw [← hmuser, ← h2, hru]
    have hahit : a ∈ df.filter (fun b => decide (b.date = p.1 ∧ b.user = p.2)) :=
      List.mem_filter.mpr ⟨ha, by rw [decide_eq_true_eq]; exact ⟨hp1.symm, hp2.symm⟩⟩
    have hemp : ¬ (df.filter
        (fun b => decide (b.date = p.1 ∧ b.user = p.2))).isEmpty = true := by
      intro hemp
      rw [List.isEmpty_iff] at hemp
      rw [hemp] at hahit
      cases hahit
    unfold mergeRows at hmp
    rw [if_neg hemp] at hmp
    rcases List.mem_map.mp hmp with ⟨b, hb, hbe⟩
    rcases List.mem_filter.mp hb with ⟨hbdf, hbp⟩
    rw [decide_eq_true_eq] at hbp
    have hba : b = a := by
      apply List.inj_on_of_nodup_map hnd hbdf ha
      show (b.date, b.user) = (a.date, a.user)
      rw [hbp.1, hbp.2, hp1, hp2]
    subst hba
    have hminf : m.influence = some b.influence := by rw [← hbe]
    have hmrank : m.rank = some b.rank := by rw [← hbe]
    constructor
    · rw [h3, hminf, Option.getD_some]
    · rw [h4, hmrank]
  · intro r hr hmiss hreal
    rcases output_row_form df r hr with ⟨m, hmm, h1, h2, h3, h4⟩
    rcases List.mem_flatMap.mp hmm with ⟨p, _, hmp⟩
    rcases mergeRows_date_user df p m hmp with ⟨hmdate, hmuser⟩
    have hhits : df.filter (fun b => decide (b.date = p.1 ∧ b.user = p.2)) = [] := by
      rw [List.filter_eq_nil_iff]
      intro b hb hbp
      rw [decide_eq_true_eq] at hbp
      exact hmiss b hb ⟨by rw [hbp.1, ← hmdate, ← h1], by rw [hbp.2, ← hmuser, ← h2]⟩
    have hemp : (df.filter
        (fun b => decide (b.date = p.1 ∧ b.user = p.2))).isEmpty = true := by
      rw [hhits]
      rfl
    unfold mergeRows at hmp
    rw [if_pos hemp, List.mem_singleton] at hmp
    have hminf : m.influence = none := by rw [hmp]
    have hmrank : m.rank = none := by rw [hmp]
    constructor
    · rw [h3, hminf]
      rfl
    · rw [h4, hmrank]
      rw [h1]
      exact listMax_congr _ _ (merged_block_ranks df m.date)

theorem claim_C8_fill_values_witness :
    ((dfSample.map fun a => (a.date, a.user)).Nodup)
    ∧ ((⟨0, "B".toList, 0, some 1⟩ : GridRow) ∈ create_all_dates_user_df dfSample)
    ∧ ((⟨0, "B".toList, 0, some 1⟩ : GridRow).influence = 0
        ∧ (⟨0, "B".toList, 0, some 1⟩ : GridRow).rank
            = listMax ((dfSample.filter fun a =>
                decide (a.date = (⟨0, "B".toList, 0, some 1⟩ : GridRow).date)).map
                  fun a => a.rank)) :=
  ⟨by decide, by decide,
    (claim_C8_fill_values dfSample (by decide)).2 ⟨0, "B".toList, 0, some 1⟩
      (by decide) (by decide) (by decide)⟩
